/-
Verification of the numeric core of the `blog-posts` anomaly-detection
notebooks: the Gaussian/Mahalanobis anomaly scorer and the PCA
component-selection logic (notebook `part_000`), and the frequency-domain
defect extractor (`ft_for_defects_in_regular_structures.ipynb`).

Shallow embedding conventions:
* numpy arrays become explicit shape data plus total entry functions over ℚ;
* external library calls (scipy FFT, numpy log/abs, the uint8 cast) are
  modelled as parameters or as small definitions reproducing their
  documented semantics; IEEE special values (±∞, NaN) that drive the
  degenerate-image behavior are modelled by an explicit extended type;
* Python `assert` failures become `Option.none`.
-/
import Mathlib

namespace BlogPosts

/-! ## Gaussian anomaly scorer (`mahalanobis_distance` in `part_000`)

The source computes `np.sqrt(np.einsum("im,mn,in->i", x_mu, inv_covariance,
x_mu))` after asserting the shapes of `values`, `mean` and `inv_covariance`
agree.  We model the arrays with explicit shapes and total entry functions;
the shape asserts become an `Option` guard, and the batched einsum becomes a
double sum.  The final `np.sqrt` is irrational-valued, so the definition
returns the pre-square-root scores and theorems apply `Real.sqrt` to them. -/

set_option maxRecDepth 100000 in
set_option maxHeartbeats 40000000 in
unseal Rat.add Rat.mul Rat.inv Rat.sub Rat.ofScientific in
/-- A 2-d numpy array of rationals: shape plus a total entry function
(indices outside the shape are irrelevant junk). -/
structure NPArray2 where
  rows : ℕ
  cols : ℕ
  entry : ℕ → ℕ → ℚ

/-- A 1-d numpy array of rationals. -/
structure NPArray1 where
  len : ℕ
  entry : ℕ → ℚ

/-- The squared Mahalanobis score of row `i` of `values`:
`∑ m ∑ k (x_im - mean_m) * invCov_mk * (x_ik - mean_k)`, the einsum
`"im,mn,in->i"` of the source at row `i`. -/
def mahalanobisRow (values : NPArray2) (mean : NPArray1) (invCov : NPArray2)
    (i : ℕ) : ℚ :=
  ∑ m ∈ Finset.range values.cols, ∑ k ∈ Finset.range values.cols,
    (values.entry i m - mean.entry m) * invCov.entry m k *
      (values.entry i k - mean.entry k)

/-- `mahalanobis_distance` from `part_000`, up to the final `np.sqrt`:
checks the source's shape asserts (`values.shape[1] == mean.shape[-1]`,
`mean.shape[-1] == inv_covariance.shape[0]`, square `inv_covariance`); a
failed assert raises in Python and is `none` here.  On success it returns
the batch of squared Mahalanobis distances, one per row of `values`; the
source returns their square roots. -/
def mahalanobis_distance (values : NPArray2) (mean : NPArray1)
    (invCov : NPArray2) : Option (List ℚ) :=
  if values.cols = mean.len ∧ mean.len = invCov.rows ∧ invCov.rows = invCov.cols
  then some ((List.range values.rows).map (mahalanobisRow values mean invCov))
  else none

/-- The matrix `values` whose `b` rows all equal `mean` — the input of the
"score of the fitted mean" scenario. -/
def rowsOfMean (b : ℕ) (mean : NPArray1) : NPArray2 :=
  ⟨b, mean.len, fun _ j => mean.entry j⟩

/-! ## PCA component cut point (`i_comp_thresholds` in `part_000`)

The source computes `variances = pca.explained_variance_ratio_.cumsum()` and
the cut point `(variances > variance_threshold).argmax()`.  `np.argmax` on a
boolean array returns the index of the first `True`, and `0` when there is
no `True`. -/

/-- Running cumulative sums with accumulator `acc`:
`cumsumFrom acc [x, y, ...] = [acc+x, acc+x+y, ...]`. -/
def cumsumFrom : ℚ → List ℚ → List ℚ
  | _, [] => []
  | acc, x :: t => (acc + x) :: cumsumFrom (acc + x) t

/-- `np.cumsum` on a 1-d array. -/
def cumsum (l : List ℚ) : List ℚ := cumsumFrom 0 l

/-- `np.argmax` on a boolean array: index of the first `true`, or `0` when
every entry is `false` (or the array is empty). -/
def boolArgmax : List Bool → ℕ
  | [] => 0
  | true :: _ => 0
  | false :: t => if t.contains true then boolArgmax t + 1 else 0

/-- The component cut point of `part_000`:
`(explained_variance_ratio_.cumsum() > variance_threshold).argmax()`. -/
def i_comp_threshold (ratios : List ℚ) (varianceThreshold : ℚ) : ℕ :=
  boolArgmax ((cumsum ratios).map (fun v => decide (varianceThreshold < v)))

/-! ## IEEE-style extended values

`np.log(np.abs(fshift))` produces `-inf` at zero spectrum entries, and the
threshold normalization `min + frac * (max - min)` then produces NaN
(`-inf - -inf`, `0 * inf`, `-inf + inf`).  `EFloat` models a float64 value
as an exact rational, `±∞`, or NaN, with IEEE arithmetic and comparison
semantics for the operations the notebook uses. -/

inductive EFloat where
  | nan : EFloat
  | pinf : EFloat
  | ninf : EFloat
  | fin : ℚ → EFloat
deriving DecidableEq

namespace EFloat

/-- IEEE negation. -/
def neg : EFloat → EFloat
  | nan => nan
  | pinf => ninf
  | ninf => pinf
  | fin q => fin (-q)

/-- IEEE addition: NaN propagates; `+∞ + -∞ = NaN`. -/
def add : EFloat → EFloat → EFloat
  | nan, _ => nan
  | _, nan => nan
  | pinf, ninf => nan
  | ninf, pinf => nan
  | pinf, _ => pinf
  | _, pinf => pinf
  | ninf, _ => ninf
  | _, ninf => ninf
  | fin a, fin b => fin (a + b)

/-- IEEE subtraction. -/
def sub (a b : EFloat) : EFloat := add a (neg b)

/-- IEEE multiplication: NaN propagates; `0 * ±∞ = NaN`. -/
def mul : EFloat → EFloat → EFloat
  | nan, _ => nan
  | _, nan => nan
  | pinf, pinf => pinf
  | pinf, ninf => ninf
  | ninf, pinf => ninf
  | ninf, ninf => pinf
  | fin q, pinf => if 0 < q then pinf else if q < 0 then ninf else nan
  | fin q, ninf => if 0 < q then ninf else if q < 0 then pinf else nan
  | pinf, fin q => if 0 < q then pinf else if q < 0 then ninf else nan
  | ninf, fin q => if 0 < q then ninf else if q < 0 then pinf else nan
  | fin a, fin b => fin (a * b)

/-- IEEE strict less-than: any comparison with NaN is false. -/
def lt : EFloat → EFloat → Bool
  | nan, _ => false
  | _, nan => false
  | ninf, ninf => false
  | ninf, _ => true
  | _, ninf => false
  | pinf, _ => false
  | fin _, pinf => true
  | fin a, fin b => decide (a < b)

/-- IEEE less-or-equal: any comparison with NaN is false. -/
def le : EFloat → EFloat → Bool
  | nan, _ => false
  | _, nan => false
  | ninf, _ => true
  | _, ninf => false
  | _, pinf => true
  | pinf, fin _ => false
  | fin a, fin b => decide (a ≤ b)

/-- Pairwise maximum as used by `np.max`'s reduction: NaN propagates,
otherwise the larger of the two in the `-∞ < finite < +∞` order. -/
def max2 : EFloat → EFloat → EFloat
  | nan, _ => nan
  | _, nan => nan
  | a, b => if lt a b then b else a

/-- Pairwise minimum as used by `np.min`'s reduction. -/
def min2 : EFloat → EFloat → EFloat
  | nan, _ => nan
  | _, nan => nan
  | a, b => if lt b a then b else a

end EFloat

/-- `np.max` over a flattened array (left fold of the pairwise maximum;
numpy errors on an empty array, modelled as NaN). -/
def npMax : List EFloat → EFloat
  | [] => EFloat.nan
  | a :: t => t.foldl EFloat.max2 a

/-- `np.min` over a flattened array. -/
def npMin : List EFloat → EFloat
  | [] => EFloat.nan
  | a :: t => t.foldl EFloat.min2 a

/-! ## Frequency-domain defect extractor
(`ft_extract_anomalies` in `ft_for_defects_in_regular_structures.ipynb`)

The FFT itself (`scipy.fft.fft2/fftshift/ifftshift/ifft2`), the complex
magnitude (`np.abs`) and the logarithm (`np.log`) are external library
collaborators, not repository code; the embedding takes them as parameters
(an `FTEnv`) together with the documented properties the proofs rely on
(`FTEnv.Lawful`): forward-shift-unshift-inverse is the identity, the
transform of the zero image is zero, `np.abs` of a non-negative real is
itself, and `np.log(np.abs ·)` is `-∞` at `0` and never NaN or `+∞`. -/

/-- A complex value with exact rational parts. -/
structure CQ where
  re : ℚ
  im : ℚ
deriving DecidableEq

/-- The complex zero. -/
def CQ.zero : CQ := ⟨0, 0⟩

/-- External collaborators of the FFT pipeline for `h × w` images:
the scipy transforms and the numpy log-magnitude / complex-magnitude. -/
structure FTEnv (h w : ℕ) where
  fft2 : (Fin h → Fin w → ℚ) → (Fin h → Fin w → CQ)
  fftshift : (Fin h → Fin w → CQ) → (Fin h → Fin w → CQ)
  ifftshift : (Fin h → Fin w → CQ) → (Fin h → Fin w → CQ)
  ifft2 : (Fin h → Fin w → CQ) → (Fin h → Fin w → CQ)
  logAbs : CQ → EFloat
  absC : CQ → ℚ

/-- The documented behavior of the external collaborators that the
theorems use. -/
structure FTEnv.Lawful {h w : ℕ} (env : FTEnv h w) : Prop where
  roundtrip : ∀ x, env.ifft2 (env.ifftshift (env.fftshift (env.fft2 x)))
      = fun i j => ⟨x i j, 0⟩
  fft2_zero : env.fft2 (fun _ _ => 0) = fun _ _ => CQ.zero
  fftshift_zero : env.fftshift (fun _ _ => CQ.zero) = fun _ _ => CQ.zero
  absC_nonneg_real : ∀ q : ℚ, 0 ≤ q → env.absC ⟨q, 0⟩ = q
  logAbs_zero : env.logAbs CQ.zero = EFloat.ninf
  logAbs_not_nan : ∀ z, env.logAbs z ≠ EFloat.nan
  logAbs_not_pinf : ∀ z, env.logAbs z ≠ EFloat.pinf

/-- `img_np = np.array(img); img_np = img_np / 255.0`: the uint8 image
normalized to `[0,1]`. -/
def imgNorm {h w : ℕ} (img : Fin h → Fin w → ℕ) : Fin h → Fin w → ℚ :=
  fun i j => (img i j : ℚ) / 255

/-- `fshift = fftshift(fft2(img_np))`: the center-shifted spectrum. -/
def fshiftOf {h w : ℕ} (env : FTEnv h w) (img : Fin h → Fin w → ℕ) :
    Fin h → Fin w → CQ :=
  env.fftshift (env.fft2 (imgNorm img))

/-- `mag_img = np.log(np.abs(fshift))`: the log-magnitude spectrum. -/
def magImgOf {h w : ℕ} (env : FTEnv h w) (img : Fin h → Fin w → ℕ) :
    Fin h → Fin w → EFloat :=
  fun i j => env.logAbs (fshiftOf env img i j)

/-- The log-magnitude entries flattened in row-major (numpy) order. -/
def magListOf {h w : ℕ} (env : FTEnv h w) (img : Fin h → Fin w → ℕ) :
    List EFloat :=
  (List.finRange h).flatMap fun i => (List.finRange w).map fun j => magImgOf env img i j

/-- `thresh_val = mag_img.min() + mag_thresh * (max_val - mag_img.min())`. -/
def threshValOf {h w : ℕ} (env : FTEnv h w) (img : Fin h → Fin w → ℕ)
    (magThresh : ℚ) : EFloat :=
  let l := magListOf env img
  EFloat.add (npMin l)
    (EFloat.mul (EFloat.fin magThresh) (EFloat.sub (npMax l) (npMin l)))

/-- `cv2.threshold(mag_img, thresh_val, 1.0, cv2.THRESH_BINARY)` followed by
`astype(bool)`: true exactly where `mag_img > thresh_val` (false whenever
either side is NaN, per IEEE comparison). -/
def maskOf {h w : ℕ} (env : FTEnv h w) (img : Fin h → Fin w → ℕ)
    (magThresh : ℚ) : Fin h → Fin w → Bool :=
  fun i j => EFloat.lt (threshValOf env img magThresh) (magImgOf env img i j)

/-- `fshift_proc = fshift * ~mag_img_mask`: the spectrum multiplied by the
inverted boolean mask (`false → 0`, `true → 1` factor). -/
def fshiftProcOf {h w : ℕ} (env : FTEnv h w) (img : Fin h → Fin w → ℕ)
    (magThresh : ℚ) : Fin h → Fin w → CQ :=
  fun i j => if maskOf env img magThresh i j then CQ.zero else fshiftOf env img i j

/-- `img_proc = np.abs(ifft2(ifftshift(fshift_proc)))`: the reconstruction
magnitude. -/
def reconOf {h w : ℕ} (env : FTEnv h w) (img : Fin h → Fin w → ℕ)
    (magThresh : ℚ) : Fin h → Fin w → ℚ :=
  fun i j => env.absC (env.ifft2 (env.ifftshift (fshiftProcOf env img magThresh)) i j)

/-- `astype(np.uint8)` on a float64 value: C-cast semantics — truncate
toward zero, then take the low byte (wrap modulo 256); no clipping. -/
def u8cast (q : ℚ) : ℕ := (((⌊q⌋ : ℤ)) % 256).toNat

/-- `ft_extract_anomalies(img, mag_thresh)`: the full pipeline, ending in
`(img_proc * 255.0).astype(np.uint8)`. -/
def ft_extract_anomalies {h w : ℕ} (env : FTEnv h w)
    (img : Fin h → Fin w → ℕ) (magThresh : ℚ) : Fin h → Fin w → ℕ :=
  fun i j => u8cast (reconOf env img magThresh i j * 255)

/-- Number of true entries of the magnitude mask (for the monotonicity
property). -/
def maskCount {h w : ℕ} (env : FTEnv h w) (img : Fin h → Fin w → ℕ)
    (magThresh : ℚ) : ℕ :=
  (Finset.univ.filter fun p : Fin h × Fin w =>
    maskOf env img magThresh p.1 p.2 = true).card

/-! ## Bounding-box extraction
(`find_bounding_boxes` and `ft_defect_detection` in the same notebook)

The pipeline: percentile-threshold the image, dilate with a
`dilation_size × dilation_size` square, clear components touching the
border, label 8-connected components, drop components below an area floor,
return the surviving components' bounding boxes.

The source computes the area floor from
`img_proc_np.shape[0] * img_proc_np.shape[1]` — `img_proc_np` is a
notebook-global array from an earlier prototyping cell, not the function's
input.  The embedding keeps that behavior faithfully via the explicit
parameters `gh gw` (the global's shape). -/

/-- Insert into a sorted list (ascending). -/
def insertNat (a : ℕ) : List ℕ → List ℕ
  | [] => [a]
  | b :: t => if a ≤ b then a :: b :: t else b :: insertNat a t

/-- Insertion sort, ascending — the sorted order `np.percentile` works on. -/
def sortNat : List ℕ → List ℕ
  | [] => []
  | a :: t => insertNat a (sortNat t)

/-- `np.percentile` with the default linear interpolation: the value at
fractional position `perc/100 * (n-1)` of the sorted data. -/
def npPercentile (l : List ℕ) (perc : ℚ) : ℚ :=
  let s := sortNat l
  let n := s.length
  let pos : ℚ := perc / 100 * ((n : ℚ) - 1)
  let k : ℕ := (⌊pos⌋).toNat
  if k + 1 < n then
    (s.getD k 0 : ℚ) + (pos - (k : ℚ)) * ((s.getD (k + 1) 0 : ℚ) - (s.getD k 0 : ℚ))
  else (s.getD (n - 1) 0 : ℚ)

/-- `skimage.morphology.binary_dilation` with footprint
`np.ones([d, d])` for odd `d` (the spec requires `dilation_size` odd):
a pixel is set iff some set input pixel is within Chebyshev distance
`d / 2`. -/
def binary_dilation {h w : ℕ} (d : ℕ) (S : Finset (Fin h × Fin w)) :
    Finset (Fin h × Fin w) :=
  Finset.univ.filter (fun x => ∃ p ∈ S,
    p.1.val ≤ x.1.val + d / 2 ∧ x.1.val ≤ p.1.val + d / 2 ∧
    p.2.val ≤ x.2.val + d / 2 ∧ x.2.val ≤ p.2.val + d / 2)

/-- 8-neighborhood adjacency of two distinct grid positions. -/
def adjacent8 {h w : ℕ} (p q : Fin h × Fin w) : Prop :=
  p ≠ q ∧ p.1.val ≤ q.1.val + 1 ∧ q.1.val ≤ p.1.val + 1 ∧
    p.2.val ≤ q.2.val + 1 ∧ q.2.val ≤ p.2.val + 1

instance {h w : ℕ} (p q : Fin h × Fin w) : Decidable (adjacent8 p q) := by
  unfold adjacent8; infer_instance

/-- Adjacency restricted to set pixels of mask `S` — the edge relation of
`skimage.measure.label`'s default full (8-)connectivity.  A binary mask is
represented by its set of set pixels. -/
def adjOn {h w : ℕ} (S : Finset (Fin h × Fin w)) (p q : Fin h × Fin w) : Prop :=
  p ∈ S ∧ q ∈ S ∧ adjacent8 p q

instance {h w : ℕ} (S : Finset (Fin h × Fin w)) (p q : Fin h × Fin w) :
    Decidable (adjOn S p q) := by
  unfold adjOn; infer_instance

/-- One breadth-first expansion step: add every set pixel adjacent to the
current set. -/
def expandOnce {h w : ℕ} (S : Finset (Fin h × Fin w))
    (X : Finset (Fin h × Fin w)) : Finset (Fin h × Fin w) :=
  X ∪ Finset.univ.filter (fun q => ∃ p ∈ X, adjOn S p q)

/-- The connected component of pixel `p` in mask `S`: `h * w` expansion
steps from `{p}` saturate the component (the grid has `h * w` pixels). -/
def comp {h w : ℕ} (S : Finset (Fin h × Fin w)) (p : Fin h × Fin w) :
    Finset (Fin h × Fin w) :=
  (expandOnce S)^[h * w] {p}

/-- Raster (row-major) order key of a pixel. -/
def pkey {h w : ℕ} (p : Fin h × Fin w) : ℕ := p.1.val * w + p.2.val

/-- All pixels in raster order. -/
def allPixels (h w : ℕ) : List (Fin h × Fin w) :=
  (List.finRange h).flatMap fun i => (List.finRange w).map fun j => (i, j)

/-- A pixel on the image border. -/
def isBorder {h w : ℕ} (p : Fin h × Fin w) : Prop :=
  p.1.val = 0 ∨ p.1.val = h - 1 ∨ p.2.val = 0 ∨ p.2.val = w - 1

instance {h w : ℕ} (p : Fin h × Fin w) : Decidable (isBorder p) := by
  unfold isBorder; infer_instance

/-- `skimage.segmentation.clear_border`: keep a set pixel iff its connected
component contains no border pixel. -/
def clear_border {h w : ℕ} (S : Finset (Fin h × Fin w)) :
    Finset (Fin h × Fin w) :=
  S.filter (fun p => ∀ q ∈ comp S p, ¬ isBorder q)

/-- `p` is the label root of its component: a set pixel that is
raster-first in its component.  `skimage.measure.label` assigns labels in
raster order of each component's first pixel, so the roots in raster order
enumerate the labeled regions in label order. -/
def isRoot {h w : ℕ} (S : Finset (Fin h × Fin w)) (p : Fin h × Fin w) : Prop :=
  p ∈ S ∧ ∀ q ∈ comp S p, pkey p ≤ pkey q

instance {h w : ℕ} (S : Finset (Fin h × Fin w)) (p : Fin h × Fin w) :
    Decidable (isRoot S p) := by
  unfold isRoot; infer_instance

/-- The label roots in raster (= label) order. -/
def rootsOf {h w : ℕ} (S : Finset (Fin h × Fin w)) : List (Fin h × Fin w) :=
  (allPixels h w).filter (fun p => decide (isRoot S p))

/-- Minimum of a list of naturals (`0` for the empty list; only applied to
nonempty region coordinate lists). -/
def natMinL : List ℕ → ℕ
  | [] => 0
  | a :: t => t.foldl Nat.min a

/-- Maximum of a list of naturals. -/
def natMaxL : List ℕ → ℕ
  | [] => 0
  | a :: t => t.foldl Nat.max a

/-- `skimage.measure.regionprops` bbox of a region:
`(min_row, min_col, max_row + 1, max_col + 1)` (half-open). -/
def bboxOf {h w : ℕ} (S : Finset (Fin h × Fin w)) : ℕ × ℕ × ℕ × ℕ :=
  let l := (allPixels h w).filter (fun p => p ∈ S)
  (natMinL (l.map fun p => p.1.val), natMinL (l.map fun p => p.2.val),
   natMaxL (l.map fun p => p.1.val) + 1, natMaxL (l.map fun p => p.2.val) + 1)

/-- Python `int()` on a non-negative float: truncation toward zero. -/
def intTruncNat (q : ℚ) : ℕ := (⌊q⌋).toNat

/-- The cleaned mask of `find_bounding_boxes`: percentile threshold
(`cv2.threshold(img_np, int(thresh_val), 1.0, THRESH_BINARY)` is
`pixel > int(thresh_val)`), dilation, border clearing. -/
def cleanedMask {h w : ℕ} (img : Fin h → Fin w → ℕ) (percThresh : ℚ)
    (dilationSize : ℕ) : Finset (Fin h × Fin w) :=
  let pixels := (allPixels h w).map fun p => img p.1 p.2
  let t : ℕ := intTruncNat (npPercentile pixels percThresh)
  let mask1 : Finset (Fin h × Fin w) := Finset.univ.filter (fun p => t < img p.1 p.2)
  clear_border (binary_dilation dilationSize mask1)

/-- The label roots of the cleaned mask that survive the area floor.  The
floor is `gh * gw * areaThresh` where `gh, gw` is the shape of the
notebook-global `img_proc_np` the source reads (not the input's shape). -/
def survivingRoots {h w : ℕ} (img : Fin h → Fin w → ℕ) (percThresh : ℚ)
    (areaThresh : ℚ) (dilationSize : ℕ) (gh gw : ℕ) : List (Fin h × Fin w) :=
  let m := cleanedMask img percThresh dilationSize
  (rootsOf m).filter fun p =>
    decide ((gh : ℚ) * (gw : ℚ) * areaThresh ≤ ((comp m p).card : ℚ))

/-- `find_bounding_boxes(img, perc_thresh, area_thresh, dilation_size)`:
bounding boxes of the surviving labeled regions, in label order. -/
def find_bounding_boxes {h w : ℕ} (img : Fin h → Fin w → ℕ) (percThresh : ℚ)
    (areaThresh : ℚ) (dilationSize : ℕ) (gh gw : ℕ) : List (ℕ × ℕ × ℕ × ℕ) :=
  (survivingRoots img percThresh areaThresh dilationSize gh gw).map fun p =>
    bboxOf (comp (cleanedMask img percThresh dilationSize) p)

/-- `ft_defect_detection`: `ft_extract_anomalies` composed with
`find_bounding_boxes` (which reads the notebook-global shape `gh, gw`). -/
def ft_defect_detection {h w : ℕ} (env : FTEnv h w) (img : Fin h → Fin w → ℕ)
    (magThresh percThresh areaThresh : ℚ) (dilationSize gh gw : ℕ) :
    List (ℕ × ℕ × ℕ × ℕ) :=
  find_bounding_boxes (ft_extract_anomalies env img magThresh) percThresh
    areaThresh dilationSize gh gw

/-- Two half-open boxes share at least one pixel. -/
def boxesOverlap (a b : ℕ × ℕ × ℕ × ℕ) : Prop :=
  ∃ i j : ℕ, a.1 ≤ i ∧ i < a.2.2.1 ∧ a.2.1 ≤ j ∧ j < a.2.2.2 ∧
    b.1 ≤ i ∧ i < b.2.2.1 ∧ b.2.1 ≤ j ∧ j < b.2.2.2

/-! ## Theorems: Gaussian anomaly scorer -/

/-- C1: for every fitted Gaussian anomaly model — shapes consistent and the
precision matrix positive semidefinite, as the inverse of a shrinkage
covariance estimate is — `decision_function` succeeds on every test matrix
of matching column count with one score per input row; each squared score
is non-negative, so each returned score `sqrt s` is a non-negative real
whose square is exactly the quadratic form; and on the matrix whose rows
all equal the fitted mean every squared score (hence every score) is `0`. -/
theorem mahalanobis_nonneg_and_zero_at_mean
    (values : NPArray2) (mean : NPArray1) (invCov : NPArray2) (b : ℕ)
    (hc : values.cols = mean.len) (hr : mean.len = invCov.rows)
    (hs : invCov.rows = invCov.cols)
    (hPSD : ∀ v : ℕ → ℚ, 0 ≤ ∑ m ∈ Finset.range mean.len,
      ∑ k ∈ Finset.range mean.len, v m * invCov.entry m k * v k) :
    (∃ scores, mahalanobis_distance values mean invCov = some scores ∧
      scores.length = values.rows ∧
      ∀ s ∈ scores, 0 ≤ s ∧ 0 ≤ Real.sqrt (s : ℝ) ∧
        Real.sqrt (s : ℝ) ^ 2 = (s : ℝ)) ∧
    mahalanobis_distance (rowsOfMean b mean) mean invCov
      = some (List.replicate b 0) := by
  constructor
  · refine ⟨(List.range values.rows).map (mahalanobisRow values mean invCov),
      ?_, by simp, ?_⟩
    · rw [mahalanobis_distance, if_pos ⟨hc, hr, hs⟩]
    · intro s hsmem
      obtain ⟨i, -, rfl⟩ := List.mem_map.1 hsmem
      have h0 : 0 ≤ mahalanobisRow values mean invCov i := by
        have := hPSD (fun m => values.entry i m - mean.entry m)
        rwa [mahalanobisRow, hc]
      exact ⟨h0, Real.sqrt_nonneg _,
        Real.sq_sqrt (by exact_mod_cast h0)⟩
  · rw [mahalanobis_distance, if_pos ⟨rfl, hr, hs⟩]
    have hz : ∀ i, mahalanobisRow (rowsOfMean b mean) mean invCov i = 0 := by
      intro i
      simp [mahalanobisRow, rowsOfMean]
    simp only [rowsOfMean]
    congr 1
    calc (List.range b).map (mahalanobisRow (rowsOfMean b mean) mean invCov)
        = (List.range b).map (fun _ => (0 : ℚ)) := by
          exact List.map_congr_left fun i _ => hz i
      _ = List.replicate b 0 := by simp [List.map_const']

/-- Witness for C1 at a concrete fitted model: one feature dimension,
mean `(1)`, precision `(2)` (positive semidefinite), test batch the single
row `(3)`, and a 2-row mean matrix for the zero-at-mean part. -/
theorem mahalanobis_nonneg_and_zero_at_mean_witness :
    (∃ scores, mahalanobis_distance ⟨1, 1, fun _ _ => 3⟩ ⟨1, fun _ => 1⟩
        ⟨1, 1, fun _ _ => 2⟩ = some scores ∧
      scores.length = (1 : ℕ) ∧
      ∀ s ∈ scores, 0 ≤ s ∧ 0 ≤ Real.sqrt (s : ℝ) ∧
        Real.sqrt (s : ℝ) ^ 2 = (s : ℝ)) ∧
    mahalanobis_distance (rowsOfMean 2 ⟨1, fun _ => 1⟩) ⟨1, fun _ => 1⟩
        ⟨1, 1, fun _ _ => 2⟩ = some (List.replicate 2 0) :=
  mahalanobis_nonneg_and_zero_at_mean ⟨1, 1, fun _ _ => 3⟩ ⟨1, fun _ => 1⟩
    ⟨1, 1, fun _ _ => 2⟩ 2 rfl rfl rfl
    (fun v => by
      simp only [Finset.sum_range_succ, Finset.sum_range_zero, zero_add]
      nlinarith [sq_nonneg (v 0)])

/-- C7: `decision_function` on shape-mismatched inputs — test columns not
equal to the fitted feature dimension, or a non-square precision matrix, or
a precision matrix not matching the mean's dimension — fails the source's
`assert`s and raises before computing any scores: the embedded function
returns `none`, never a score list. -/
theorem mahalanobis_rejects_shape_mismatch
    (values : NPArray2) (mean : NPArray1) (invCov : NPArray2)
    (hbad : values.cols ≠ mean.len ∨ mean.len ≠ invCov.rows ∨
      invCov.rows ≠ invCov.cols) :
    mahalanobis_distance values mean invCov = none := by
  rw [mahalanobis_distance, if_neg]
  intro ⟨h1, h2, h3⟩
  rcases hbad with h | h | h <;> exact h (by assumption)

/-- Witness for C7: a 1×2 test matrix against a 1-dimensional fitted model
is rejected. -/
theorem mahalanobis_rejects_shape_mismatch_witness :
    mahalanobis_distance ⟨1, 2, fun _ _ => 0⟩ ⟨1, fun _ => 0⟩
      ⟨1, 1, fun _ _ => 1⟩ = none :=
  mahalanobis_rejects_shape_mismatch _ _ _ (Or.inl (by decide))

/-! ## Theorems: PCA component cut point -/

/-- `np.argmax` on a boolean array containing a `true`: the result indexes
the first `true`. -/
theorem boolArgmax_spec (l : List Bool) (hl : true ∈ l) :
    boolArgmax l < l.length ∧ l.getD (boolArgmax l) false = true ∧
      ∀ j < boolArgmax l, l.getD j false = false := by
  induction l with
  | nil => cases hl
  | cons a t ih =>
    cases a with
    | true => exact ⟨Nat.succ_pos _, rfl, fun j hj => absurd hj (Nat.not_lt_zero j)⟩
    | false =>
      have ht : true ∈ t := by
        rcases List.mem_cons.1 hl with h | h
        · exact absurd h.symm (by simp)
        · exact h
      have hco : t.contains true = true := List.elem_eq_true_of_mem ht
      obtain ⟨ih1, ih2, ih3⟩ := ih ht
      rw [boolArgmax, if_pos hco]
      refine ⟨by simpa using Nat.succ_lt_succ ih1, by simpa using ih2, ?_⟩
      intro j hj
      cases j with
      | zero => rfl
      | succ j' => simpa using ih3 j' (Nat.lt_of_succ_lt_succ hj)

/-- Adjacent cumulative sums over non-negative summands are
non-decreasing. -/
theorem cumsumFrom_le_succ (l : List ℚ) (acc : ℚ)
    (hnn : ∀ r ∈ l, 0 ≤ r) (i : ℕ) (hi : i + 1 < (cumsumFrom acc l).length) :
    (cumsumFrom acc l).getD i 0 ≤ (cumsumFrom acc l).getD (i + 1) 0 := by
  induction l generalizing acc i with
  | nil => simp [cumsumFrom] at hi
  | cons x t ih =>
    cases i with
    | zero =>
      cases t with
      | nil => simp [cumsumFrom] at hi
      | cons y s =>
        have hy : 0 ≤ y := hnn y (by simp)
        simp [cumsumFrom]
        linarith
    | succ i' =>
      have := ih (acc + x) (fun r hr => hnn r (by simp [hr])) i'
        (by simpa [cumsumFrom] using hi)
      simpa [cumsumFrom] using this

/-- Cumulative sums over non-negative summands are monotone in the index. -/
theorem cumsumFrom_mono (l : List ℚ) (acc : ℚ) (hnn : ∀ r ∈ l, 0 ≤ r)
    (i j : ℕ) (hij : i ≤ j) (hj : j < (cumsumFrom acc l).length) :
    (cumsumFrom acc l).getD i 0 ≤ (cumsumFrom acc l).getD j 0 := by
  induction j with
  | zero => simp_all
  | succ j' ih =>
    rcases eq_or_lt_of_le hij with h | hlt
    · rw [h]
    · have hij' : i ≤ j' := Nat.lt_succ_iff.1 hlt
      have hj' : j' < (cumsumFrom acc l).length := Nat.lt_of_succ_lt hj
      exact le_trans (ih hij' hj') (cumsumFrom_le_succ l acc hnn j' hj)

/-- `cumsum` restated of `cumsumFrom` monotonicity. -/
theorem cumsum_mono (l : List ℚ) (hnn : ∀ r ∈ l, 0 ≤ r)
    (i j : ℕ) (hij : i ≤ j) (hj : j < (cumsum l).length) :
    (cumsum l).getD i 0 ≤ (cumsum l).getD j 0 :=
  cumsumFrom_mono l 0 hnn i j hij hj

/-- C6: the PCA cut point `(variances > threshold).argmax()` is the first
index whose cumulative explained variance strictly exceeds the threshold:
provided some index strictly exceeds it, the cut index does, every earlier
index does not, and (with non-negative variance ratios) any index where
the cumulative variance equals the threshold exactly lies strictly before
the cut — the cut moves past it to a later component. -/
theorem pca_cut_is_first_strict_exceedance (ratios : List ℚ) (t : ℚ)
    (hnn : ∀ r ∈ ratios, 0 ≤ r)
    (hex : ∃ i, i < (cumsum ratios).length ∧ t < (cumsum ratios).getD i 0) :
    (t < (cumsum ratios).getD (i_comp_threshold ratios t) 0) ∧
    (∀ j < i_comp_threshold ratios t, (cumsum ratios).getD j 0 ≤ t) ∧
    (∀ j, j < (cumsum ratios).length → (cumsum ratios).getD j 0 = t →
      i_comp_threshold ratios t ≠ j ∧ j < i_comp_threshold ratios t) := by
  obtain ⟨i0, hi0len, hi0⟩ := hex
  set cs := cumsum ratios with hcs
  set bl := cs.map (fun v => decide (t < v)) with hbl
  have hmemD : cs.getD i0 0 ∈ cs := by
    rw [List.getD_eq_getElem?_getD, List.getElem?_eq_getElem hi0len]
    simp only [Option.getD_some]
    exact List.getElem_mem hi0len
  have hmemtrue : true ∈ bl := by
    rw [hbl]
    exact List.mem_map.2 ⟨cs.getD i0 0, hmemD, by simpa using hi0⟩
  obtain ⟨hlen, hit, hbefore⟩ := boolArgmax_spec bl hmemtrue
  have hblen : bl.length = cs.length := by rw [hbl]; exact List.length_map cs _
  have hgetD : ∀ j, j < cs.length → bl.getD j false = decide (t < cs.getD j 0) := by
    intro j hj
    rw [hbl]
    rw [List.getD_eq_getElem?_getD, List.getElem?_map,
      List.getElem?_eq_getElem hj]
    simp [List.getD_eq_getElem?_getD, List.getElem?_eq_getElem hj]
  have hcut : i_comp_threshold ratios t = boolArgmax bl := rfl
  have hcutlen : i_comp_threshold ratios t < cs.length := by
    rw [hcut, ← hblen]; exact hlen
  have h1 : t < cs.getD (i_comp_threshold ratios t) 0 := by
    have := hgetD _ hcutlen
    rw [hcut] at this ⊢
    rw [this] at hit
    exact of_decide_eq_true hit
  refine ⟨h1, ?_, ?_⟩
  · intro j hj
    have hjlen : j < cs.length := lt_trans hj hcutlen
    have := hbefore j (by rwa [← hcut])
    rw [hgetD j hjlen] at this
    exact not_lt.1 (of_decide_eq_false this)
  · intro j hjlen hjeq
    have hne : i_comp_threshold ratios t ≠ j := by
      intro h
      rw [h, hjeq] at h1
      exact lt_irrefl t h1
    refine ⟨hne, ?_⟩
    by_contra hge
    have hle : i_comp_threshold ratios t ≤ j := not_lt.1 hge
    have := cumsum_mono ratios hnn (i_comp_threshold ratios t) j hle
      (by rw [← hcs]; exact hjlen)
    rw [← hcs, hjeq] at this
    exact absurd (lt_of_lt_of_le h1 this) (lt_irrefl t)

/-- Witness for C6: ratios `[1/2, 1/2]`, threshold `3/4`: the cumulative
variances are `[1/2, 1]`, and the cut point is index `1`. -/
theorem pca_cut_is_first_strict_exceedance_witness :
    ((3/4 : ℚ) < (cumsum [1/2, 1/2]).getD (i_comp_threshold [1/2, 1/2] (3/4)) 0) ∧
    (∀ j < i_comp_threshold [1/2, 1/2] (3/4 : ℚ),
      (cumsum [1/2, 1/2]).getD j 0 ≤ (3/4 : ℚ)) ∧
    (∀ j, j < (cumsum [(1:ℚ)/2, 1/2]).length →
      (cumsum [(1:ℚ)/2, 1/2]).getD j 0 = 3/4 →
      i_comp_threshold [1/2, 1/2] (3/4) ≠ j ∧
        j < i_comp_threshold [1/2, 1/2] (3/4)) :=
  pca_cut_is_first_strict_exceedance [1/2, 1/2] (3/4)
    (by intro r hr; rcases List.mem_cons.1 hr with h | h
        · rw [h]; norm_num
        · rcases List.mem_cons.1 h with h' | h'
          · rw [h']; norm_num
          · cases h')
    ⟨1, by norm_num [cumsum, cumsumFrom]⟩

/-! ## EFloat lemmas -/

/-- `max2` returns one of its arguments. -/
theorem EFloat.max2_cases (a b : EFloat) : max2 a b = a ∨ max2 a b = b := by
  cases a <;> cases b <;>
    first
      | exact Or.inl rfl
      | exact Or.inr rfl
      | exact Or.symm (ite_eq_or_eq _ _ _)

/-- `min2` returns one of its arguments. -/
theorem EFloat.min2_cases (a b : EFloat) : min2 a b = a ∨ min2 a b = b := by
  cases a <;> cases b <;>
    first
      | exact Or.inl rfl
      | exact Or.inr rfl
      | exact Or.symm (ite_eq_or_eq _ _ _)

/-- A fold of a selecting operation stays among the accumulator and the
list elements. -/
theorem foldl_select_mem (f : EFloat → EFloat → EFloat)
    (hf : ∀ a b, f a b = a ∨ f a b = b) :
    ∀ (l : List EFloat) (a : EFloat), l.foldl f a = a ∨ l.foldl f a ∈ l := by
  intro l
  induction l with
  | nil => intro a; exact Or.inl rfl
  | cons x t ih =>
    intro a
    rcases ih (f a x) with h | h
    · rcases hf a x with h' | h'
      · exact Or.inl (by rw [List.foldl_cons, h, h'])
      · exact Or.inr (by rw [List.foldl_cons, h, h']; exact List.mem_cons_self x t)
    · exact Or.inr (List.mem_cons_of_mem x h)

/-- `np.max` of a nonempty array is one of its entries. -/
theorem npMax_mem (l : List EFloat) (hl : l ≠ []) : npMax l ∈ l := by
  cases l with
  | nil => exact absurd rfl hl
  | cons a t =>
    rcases foldl_select_mem EFloat.max2 EFloat.max2_cases t a with h | h
    · rw [npMax, h]; exact List.mem_cons_self a t
    · exact List.mem_cons_of_mem a h

/-- `np.min` of a nonempty array is one of its entries. -/
theorem npMin_mem (l : List EFloat) (hl : l ≠ []) : npMin l ∈ l := by
  cases l with
  | nil => exact absurd rfl hl
  | cons a t =>
    rcases foldl_select_mem EFloat.min2 EFloat.min2_cases t a with h | h
    · rw [npMin, h]; exact List.mem_cons_self a t
    · exact List.mem_cons_of_mem a h

/-- `min2` with a `-∞` argument and no NaN is `-∞`. -/
theorem EFloat.min2_ninf_left (x : EFloat) (hx : x ≠ nan) : min2 ninf x = ninf := by
  cases x <;> simp_all [min2, lt]

/-- `min2` with a `-∞` argument and no NaN is `-∞`. -/
theorem EFloat.min2_ninf_right (x : EFloat) (hx : x ≠ nan) : min2 x ninf = ninf := by
  cases x <;> simp_all [min2, lt]

/-- Folding `min2` over NaN-free entries containing (or starting from)
`-∞` gives `-∞`. -/
theorem foldl_min2_ninf :
    ∀ (t : List EFloat) (a : EFloat), a ≠ EFloat.nan →
      (∀ x ∈ t, x ≠ EFloat.nan) → (a = EFloat.ninf ∨ EFloat.ninf ∈ t) →
      t.foldl EFloat.min2 a = EFloat.ninf := by
  intro t
  induction t with
  | nil =>
    intro a _ _ hin
    rcases hin with h | h
    · exact h
    · cases h
  | cons x t' ih =>
    intro a ha hts hin
    have hx : x ≠ EFloat.nan := hts x (List.mem_cons_self x t')
    have hacc : EFloat.min2 a x ≠ EFloat.nan := by
      rcases EFloat.min2_cases a x with h | h <;> rw [h] <;> assumption
    rw [List.foldl_cons]
    rcases hin with h | h
    · exact ih (EFloat.min2 a x) hacc (fun y hy => hts y (List.mem_cons_of_mem x hy))
        (Or.inl (by rw [h]; exact EFloat.min2_ninf_left x hx))
    · rcases List.mem_cons.1 h with h' | h'
      · exact ih (EFloat.min2 a x) hacc (fun y hy => hts y (List.mem_cons_of_mem x hy))
          (Or.inl (by rw [← h']; exact EFloat.min2_ninf_right a ha))
      · exact ih (EFloat.min2 a x) hacc (fun y hy => hts y (List.mem_cons_of_mem x hy))
          (Or.inr h')

/-- `np.min` of a NaN-free array containing `-∞` is `-∞`. -/
theorem npMin_eq_ninf (l : List EFloat) (hok : ∀ x ∈ l, x ≠ EFloat.nan)
    (hmem : EFloat.ninf ∈ l) : npMin l = EFloat.ninf := by
  cases l with
  | nil => cases hmem
  | cons a t =>
    rw [npMin]
    rcases List.mem_cons.1 hmem with h | h
    · exact foldl_min2_ninf t a (hok a (List.mem_cons_self a t))
        (fun y hy => hok y (List.mem_cons_of_mem a hy)) (Or.inl h.symm)
    · exact foldl_min2_ninf t a (hok a (List.mem_cons_self a t))
        (fun y hy => hok y (List.mem_cons_of_mem a hy)) (Or.inr h)

/-- Folding `min2` over all-finite entries from a finite accumulator:
the result is finite, bounds the accumulator and every entry from below. -/
theorem foldl_min2_fin :
    ∀ (t : List EFloat) (a : ℚ), (∀ x ∈ t, ∃ q : ℚ, x = EFloat.fin q) →
      ∃ m : ℚ, t.foldl EFloat.min2 (EFloat.fin a) = EFloat.fin m ∧ m ≤ a ∧
        ∀ q : ℚ, EFloat.fin q ∈ t → m ≤ q := by
  intro t
  induction t with
  | nil => intro a _; exact ⟨a, rfl, le_refl a, fun q hq => absurd hq (by simp)⟩
  | cons x t' ih =>
    intro a hts
    obtain ⟨qx, rfl⟩ := hts x (List.mem_cons_self x t')
    have hmin : EFloat.min2 (EFloat.fin a) (EFloat.fin qx) = EFloat.fin (min a qx) := by
      simp only [EFloat.min2, EFloat.lt]
      split <;> rename_i hcond
      · rw [min_eq_right (le_of_lt (of_decide_eq_true hcond))]
      · rw [min_eq_left (not_lt.1 (of_decide_eq_false (Bool.of_not_eq_true hcond)))]
    obtain ⟨m, heq, hma, hall⟩ := ih (min a qx)
      (fun y hy => hts y (List.mem_cons_of_mem _ hy))
    refine ⟨m, by rw [List.foldl_cons, hmin]; exact heq,
      le_trans hma (min_le_left a qx), ?_⟩
    intro q hq
    rcases List.mem_cons.1 hq with h | h
    · have : q = qx := by injection h
      rw [this]; exact le_trans hma (min_le_right a qx)
    · exact hall q h

/-- Folding `max2` over all-finite entries from a finite accumulator. -/
theorem foldl_max2_fin :
    ∀ (t : List EFloat) (a : ℚ), (∀ x ∈ t, ∃ q : ℚ, x = EFloat.fin q) →
      ∃ m : ℚ, t.foldl EFloat.max2 (EFloat.fin a) = EFloat.fin m ∧ a ≤ m ∧
        ∀ q : ℚ, EFloat.fin q ∈ t → q ≤ m := by
  intro t
  induction t with
  | nil => intro a _; exact ⟨a, rfl, le_refl a, fun q hq => absurd hq (by simp)⟩
  | cons x t' ih =>
    intro a hts
    obtain ⟨qx, rfl⟩ := hts x (List.mem_cons_self x t')
    have hmax : EFloat.max2 (EFloat.fin a) (EFloat.fin qx) = EFloat.fin (max a qx) := by
      simp only [EFloat.max2, EFloat.lt]
      split <;> rename_i hcond
      · rw [max_eq_right (le_of_lt (of_decide_eq_true hcond))]
      · rw [max_eq_left (not_lt.1 (of_decide_eq_false (Bool.of_not_eq_true hcond)))]
    obtain ⟨m, heq, hma, hall⟩ := ih (max a qx)
      (fun y hy => hts y (List.mem_cons_of_mem _ hy))
    refine ⟨m, by rw [List.foldl_cons, hmax]; exact heq,
      le_trans (le_max_left a qx) hma, ?_⟩
    intro q hq
    rcases List.mem_cons.1 hq with h | h
    · have : q = qx := by injection h
      rw [this]; exact le_trans (le_max_right a qx) hma
    · exact hall q h

/-- `np.min` of a nonempty all-finite array: finite and a lower bound. -/
theorem npMin_allFin (l : List EFloat) (hl : l ≠ [])
    (hfin : ∀ x ∈ l, ∃ q : ℚ, x = EFloat.fin q) :
    ∃ m : ℚ, npMin l = EFloat.fin m ∧ ∀ q : ℚ, EFloat.fin q ∈ l → m ≤ q := by
  cases l with
  | nil => exact absurd rfl hl
  | cons a t =>
    obtain ⟨qa, rfl⟩ := hfin a (List.mem_cons_self a t)
    obtain ⟨m, heq, hma, hall⟩ := foldl_min2_fin t qa
      (fun y hy => hfin y (List.mem_cons_of_mem _ hy))
    refine ⟨m, heq, ?_⟩
    intro q hq
    rcases List.mem_cons.1 hq with h | h
    · have : q = qa := by injection h
      rw [this]; exact hma
    · exact hall q h

/-- `np.max` of a nonempty all-finite array: finite and an upper bound. -/
theorem npMax_allFin (l : List EFloat) (hl : l ≠ [])
    (hfin : ∀ x ∈ l, ∃ q : ℚ, x = EFloat.fin q) :
    ∃ m : ℚ, npMax l = EFloat.fin m ∧ ∀ q : ℚ, EFloat.fin q ∈ l → q ≤ m := by
  cases l with
  | nil => exact absurd rfl hl
  | cons a t =>
    obtain ⟨qa, rfl⟩ := hfin a (List.mem_cons_self a t)
    obtain ⟨m, heq, hma, hall⟩ := foldl_max2_fin t qa
      (fun y hy => hfin y (List.mem_cons_of_mem _ hy))
    refine ⟨m, heq, ?_⟩
    intro q hq
    rcases List.mem_cons.1 hq with h | h
    · have : q = qa := by injection h
      rw [this]; exact hma
    · exact hall q h

/-! ## Theorems: magnitude mask -/

/-- Every log-magnitude entry is in the flattened list. -/
theorem magImg_mem_magList {h w : ℕ} (env : FTEnv h w) (img : Fin h → Fin w → ℕ)
    (i : Fin h) (j : Fin w) : magImgOf env img i j ∈ magListOf env img := by
  rw [magListOf]
  exact List.mem_flatMap.2 ⟨i, List.mem_finRange i,
    List.mem_map.2 ⟨j, List.mem_finRange j, rfl⟩⟩

/-- Every member of the flattened list is a log-magnitude entry. -/
theorem mem_magList {h w : ℕ} (env : FTEnv h w) (img : Fin h → Fin w → ℕ)
    (x : EFloat) (hx : x ∈ magListOf env img) :
    ∃ i j, x = magImgOf env img i j := by
  rw [magListOf] at hx
  obtain ⟨i, -, hx⟩ := List.mem_flatMap.1 hx
  obtain ⟨j, -, rfl⟩ := List.mem_map.1 hx
  exact ⟨i, j, rfl⟩

/-- The flattened log-magnitude list of a nonempty image is nonempty. -/
theorem magList_ne_nil {h w : ℕ} (env : FTEnv h w) (img : Fin h → Fin w → ℕ)
    (hh : 0 < h) (hw : 0 < w) : magListOf env img ≠ [] :=
  List.ne_nil_of_mem (magImg_mem_magList env img ⟨0, hh⟩ ⟨0, hw⟩)

/-- The threshold expression unfolded. -/
theorem threshValOf_eq {h w : ℕ} (env : FTEnv h w) (img : Fin h → Fin w → ℕ)
    (t : ℚ) :
    threshValOf env img t = EFloat.add (npMin (magListOf env img))
      (EFloat.mul (EFloat.fin t)
        (EFloat.sub (npMax (magListOf env img)) (npMin (magListOf env img)))) := rfl

/-- Comparison against NaN is false, so a NaN threshold empties the mask. -/
theorem EFloat.lt_nan_left (x : EFloat) : lt nan x = false := by
  cases x <;> rfl

/-- When the log-magnitude spectrum contains `-∞` (a zero spectrum entry)
and no NaN or `+∞`, the threshold normalization produces NaN for every
non-negative threshold fraction. -/
theorem threshValOf_nan_of_ninf_mem {h w : ℕ} (env : FTEnv h w)
    (img : Fin h → Fin w → ℕ) (hh : 0 < h) (hw : 0 < w)
    (hnn : ∀ x ∈ magListOf env img, x ≠ EFloat.nan)
    (hnp : ∀ x ∈ magListOf env img, x ≠ EFloat.pinf)
    (hninf : EFloat.ninf ∈ magListOf env img)
    (t : ℚ) (ht : 0 ≤ t) : threshValOf env img t = EFloat.nan := by
  have hne : magListOf env img ≠ [] := magList_ne_nil env img hh hw
  have hmin : npMin (magListOf env img) = EFloat.ninf :=
    npMin_eq_ninf _ hnn hninf
  rw [threshValOf_eq, hmin]
  cases hM : npMax (magListOf env img) with
  | nan => exact absurd hM (hnn _ (npMax_mem _ hne))
  | pinf => exact absurd hM (hnp _ (npMax_mem _ hne))
  | ninf => rfl
  | fin b =>
    show EFloat.add EFloat.ninf
      (EFloat.mul (EFloat.fin t) EFloat.pinf) = EFloat.nan
    rcases eq_or_lt_of_le ht with h0 | h0
    · show EFloat.add EFloat.ninf
        (if 0 < t then EFloat.pinf else if t < 0 then EFloat.ninf else EFloat.nan)
          = EFloat.nan
      rw [if_neg (by rw [← h0]; exact lt_irrefl 0),
        if_neg (by rw [← h0]; exact lt_irrefl 0)]
      rfl
    · show EFloat.add EFloat.ninf
        (if 0 < t then EFloat.pinf else if t < 0 then EFloat.ninf else EFloat.nan)
          = EFloat.nan
      rw [if_pos h0]
      rfl

/-- When every log-magnitude entry is finite the threshold is the finite
value `min + t * (max - min)`. -/
theorem threshValOf_fin {h w : ℕ} (env : FTEnv h w) (img : Fin h → Fin w → ℕ)
    (a b : ℚ) (hmin : npMin (magListOf env img) = EFloat.fin a)
    (hmax : npMax (magListOf env img) = EFloat.fin b) (t : ℚ) :
    threshValOf env img t = EFloat.fin (a + t * (b - a)) := by
  rw [threshValOf_eq, hmin, hmax]
  show EFloat.fin (a + t * (b + -a)) = EFloat.fin (a + t * (b - a))
  rw [sub_eq_add_neg]

/-- C4: the number of true entries of the magnitude mask never increases
when the threshold fraction increases within `[0, 1]` —
for any image and any lawful external environment. -/
theorem mask_count_antitone {h w : ℕ} (env : FTEnv h w) (img : Fin h → Fin w → ℕ)
    (t1 t2 : ℚ) (hE : env.Lawful) (hh : 0 < h) (hw : 0 < w)
    (h0 : 0 ≤ t1) (h12 : t1 ≤ t2) (_h1 : t2 ≤ 1) :
    maskCount env img t2 ≤ maskCount env img t1 := by
  have hnn : ∀ x ∈ magListOf env img, x ≠ EFloat.nan := by
    intro x hx
    obtain ⟨i, j, rfl⟩ := mem_magList env img x hx
    exact hE.logAbs_not_nan _
  have hnp : ∀ x ∈ magListOf env img, x ≠ EFloat.pinf := by
    intro x hx
    obtain ⟨i, j, rfl⟩ := mem_magList env img x hx
    exact hE.logAbs_not_pinf _
  have hne : magListOf env img ≠ [] := magList_ne_nil env img hh hw
  by_cases hninf : EFloat.ninf ∈ magListOf env img
  · have hz : ∀ t : ℚ, 0 ≤ t → maskCount env img t = 0 := by
      intro t ht
      rw [maskCount, Finset.card_eq_zero]
      refine Finset.filter_false_of_mem ?_
      intro p _
      rw [maskOf, threshValOf_nan_of_ninf_mem env img hh hw hnn hnp hninf t ht,
        EFloat.lt_nan_left]
      exact Bool.false_ne_true
    rw [hz t1 h0, hz t2 (le_trans h0 h12)]
  · have hfin : ∀ x ∈ magListOf env img, ∃ q : ℚ, x = EFloat.fin q := by
      intro x hx
      cases x with
      | nan => exact absurd rfl (hnn _ hx)
      | pinf => exact absurd rfl (hnp _ hx)
      | ninf => exact absurd hx hninf
      | fin q => exact ⟨q, rfl⟩
    obtain ⟨a, hmin, hminLB⟩ := npMin_allFin _ hne hfin
    obtain ⟨b, hmax, hmaxUB⟩ := npMax_allFin _ hne hfin
    have hab : a ≤ b := hmaxUB a (hmin ▸ npMin_mem _ hne)
    have hth : a + t1 * (b - a) ≤ a + t2 * (b - a) :=
      add_le_add_left (mul_le_mul_of_nonneg_right h12 (sub_nonneg.2 hab)) a
    rw [maskCount, maskCount]
    refine Finset.card_le_card ?_
    intro p hp
    obtain ⟨hpu, hp2⟩ := Finset.mem_filter.1 hp
    refine Finset.mem_filter.2 ⟨hpu, ?_⟩
    rw [maskOf, threshValOf_fin env img a b hmin hmax] at hp2 ⊢
    obtain ⟨x, hx⟩ := hfin _ (magImg_mem_magList env img p.1 p.2)
    rw [hx] at hp2 ⊢
    have h2x : a + t2 * (b - a) < x := by
      have := hp2
      exact of_decide_eq_true this
    exact decide_eq_true (lt_of_le_of_lt hth h2x)

/-- The identity external environment: a lawful `FTEnv` whose transforms
are identities, used to instantiate theorems at concrete inputs. -/
def idEnv (h w : ℕ) : FTEnv h w where
  fft2 := fun x i j => ⟨x i j, 0⟩
  fftshift := id
  ifftshift := id
  ifft2 := id
  logAbs := fun z => if z = CQ.zero then EFloat.ninf else EFloat.fin 0
  absC := fun z => z.re

/-- The identity environment satisfies the external collaborators'
contracts. -/
theorem idEnv_lawful (h w : ℕ) : (idEnv h w).Lawful := by
  refine ⟨fun x => rfl, rfl, rfl, fun q _ => rfl, ?_, ?_, ?_⟩
  · show (if CQ.zero = CQ.zero then EFloat.ninf else EFloat.fin 0) = EFloat.ninf
    rw [if_pos rfl]
  · intro z
    show (if z = CQ.zero then EFloat.ninf else EFloat.fin 0) ≠ EFloat.nan
    split <;> simp
  · intro z
    show (if z = CQ.zero then EFloat.ninf else EFloat.fin 0) ≠ EFloat.pinf
    split <;> simp

/-- Witness for C4 at a concrete environment, image and thresholds. -/
theorem mask_count_antitone_witness :
    maskCount (idEnv 1 1) (fun _ _ => 0) 1 ≤ maskCount (idEnv 1 1) (fun _ _ => 0) 0 :=
  mask_count_antitone (idEnv 1 1) (fun _ _ => 0) 0 1 (idEnv_lawful 1 1)
    Nat.one_pos Nat.one_pos (le_refl 0) (by norm_num) (le_refl 1)

/-! ## Theorems: FFT pipeline structure and degenerate inputs -/

/-- C5: `ft_extract_anomalies` center-shifts the FFT of the normalized
image, thresholds the log-magnitude at `min + t * (max - min)` with a
strictly-greater comparison, and — on any input whose log-magnitude
spectrum is everywhere finite — the inverted mask retains exactly the
spectrum entries with log-magnitude at or below the threshold; the output
is the uint8 cast of 255 times the magnitude of the inverse FFT of the
inverse-shifted masked spectrum. -/
theorem ft_extract_anomalies_masking_structure {h w : ℕ} (env : FTEnv h w)
    (img : Fin h → Fin w → ℕ) (t : ℚ)
    (hfin : ∀ i j, ∃ q : ℚ, magImgOf env img i j = EFloat.fin q) :
    (fshiftOf env img = env.fftshift (env.fft2 (imgNorm img))) ∧
    (∀ i j, maskOf env img t i j
      = EFloat.lt (threshValOf env img t) (magImgOf env img i j)) ∧
    (∀ i j, fshiftProcOf env img t i j =
      if EFloat.le (magImgOf env img i j) (threshValOf env img t) = true
      then fshiftOf env img i j else CQ.zero) ∧
    (∀ i j, ft_extract_anomalies env img t i j =
      u8cast (env.absC (env.ifft2 (env.ifftshift (fshiftProcOf env img t)) i j)
        * 255)) := by
  refine ⟨rfl, fun i j => rfl, ?_, fun i j => rfl⟩
  have hfinL : ∀ x ∈ magListOf env img, ∃ q : ℚ, x = EFloat.fin q := by
    intro x hx
    obtain ⟨i, j, rfl⟩ := mem_magList env img x hx
    exact hfin i j
  intro i j
  have hne : magListOf env img ≠ [] :=
    List.ne_nil_of_mem (magImg_mem_magList env img i j)
  obtain ⟨a, hmin, -⟩ := npMin_allFin _ hne hfinL
  obtain ⟨b, hmax, -⟩ := npMax_allFin _ hne hfinL
  obtain ⟨x, hx⟩ := hfin i j
  rw [fshiftProcOf, maskOf, threshValOf_fin env img a b hmin hmax, hx]
  show (if EFloat.lt (EFloat.fin (a + t * (b - a))) (EFloat.fin x) = true
    then CQ.zero else fshiftOf env img i j) = _
  by_cases hcmp : a + t * (b - a) < x
  · rw [if_pos (by exact decide_eq_true hcmp),
      if_neg (by
        show ¬(EFloat.le (EFloat.fin x) (EFloat.fin (a + t * (b - a))) = true)
        exact fun hle => absurd (of_decide_eq_true hle) (not_le.2 hcmp))]
  · rw [if_neg (by
        show ¬(EFloat.lt (EFloat.fin (a + t * (b - a))) (EFloat.fin x) = true)
        exact fun hlt => absurd (of_decide_eq_true hlt) hcmp),
      if_pos (by exact decide_eq_true (not_lt.1 hcmp))]

/-- Witness for C5: a 1×1 image with pixel 255 through the identity
environment has an everywhere-finite log-magnitude spectrum. -/
theorem ft_extract_anomalies_masking_structure_witness :
    (fshiftOf (idEnv 1 1) (fun _ _ => 255)
      = (idEnv 1 1).fftshift ((idEnv 1 1).fft2 (imgNorm (fun _ _ => 255)))) ∧
    (∀ i j, maskOf (idEnv 1 1) (fun _ _ => 255) (1/2) i j
      = EFloat.lt (threshValOf (idEnv 1 1) (fun _ _ => 255) (1/2))
          (magImgOf (idEnv 1 1) (fun _ _ => 255) i j)) ∧
    (∀ i j, fshiftProcOf (idEnv 1 1) (fun _ _ => 255) (1/2) i j =
      if EFloat.le (magImgOf (idEnv 1 1) (fun _ _ => 255) i j)
          (threshValOf (idEnv 1 1) (fun _ _ => 255) (1/2)) = true
      then fshiftOf (idEnv 1 1) (fun _ _ => 255) i j else CQ.zero) ∧
    (∀ i j, ft_extract_anomalies (idEnv 1 1) (fun _ _ => 255) (1/2) i j =
      u8cast ((idEnv 1 1).absC ((idEnv 1 1).ifft2 ((idEnv 1 1).ifftshift
        (fshiftProcOf (idEnv 1 1) (fun _ _ => 255) (1/2))) i j) * 255)) :=
  ft_extract_anomalies_masking_structure (idEnv 1 1) (fun _ _ => 255) (1/2)
    (fun i j => ⟨0, by
      show (if fshiftOf (idEnv 1 1) (fun _ _ => 255) i j = CQ.zero
        then EFloat.ninf else EFloat.fin 0) = EFloat.fin 0
      rw [if_neg]
      show ¬((⟨(255 : ℕ) / 255, 0⟩ : CQ) = CQ.zero)
      intro hcq
      have : ((255 : ℕ) : ℚ) / 255 = 0 := congrArg CQ.re hcq
      norm_num at this⟩)

/-- C2 (amended): the code has no explicit degenerate-image guard.  On an
all-zero image the log-magnitudes are all `-∞` and the threshold
normalization `min + t * (max - min)` evaluates to NaN — the NaN *does*
propagate through the threshold computation.  Because IEEE comparison with
NaN is false, the mask then comes out all-false, the spectrum passes
through unmasked, and the reconstruction reproduces the input exactly (in
exact arithmetic), with no exception raised. -/
theorem ft_extract_anomalies_degenerate_passthrough {h w : ℕ}
    (env : FTEnv h w) (img : Fin h → Fin w → ℕ) (t : ℚ) (hE : env.Lawful)
    (hh : 0 < h) (hw : 0 < w) (ht : 0 ≤ t) (himg : ∀ i j, img i j < 256) :
    ((∀ i j, img i j = 0) → threshValOf env img t = EFloat.nan) ∧
    (threshValOf env img t = EFloat.nan →
      (∀ i j, maskOf env img t i j = false) ∧
      ft_extract_anomalies env img t = img) := by
  have hnn : ∀ x ∈ magListOf env img, x ≠ EFloat.nan := by
    intro x hx
    obtain ⟨i, j, rfl⟩ := mem_magList env img x hx
    exact hE.logAbs_not_nan _
  have hnp : ∀ x ∈ magListOf env img, x ≠ EFloat.pinf := by
    intro x hx
    obtain ⟨i, j, rfl⟩ := mem_magList env img x hx
    exact hE.logAbs_not_pinf _
  constructor
  · intro hz
    have hnorm : imgNorm img = fun _ _ => 0 := by
      funext i j
      rw [imgNorm, hz i j]
      norm_num
    have hfz : fshiftOf env img = fun _ _ => CQ.zero := by
      rw [fshiftOf, hnorm, hE.fft2_zero, hE.fftshift_zero]
    have hmag : magImgOf env img ⟨0, hh⟩ ⟨0, hw⟩ = EFloat.ninf := by
      rw [magImgOf, hfz]
      exact hE.logAbs_zero
    exact threshValOf_nan_of_ninf_mem env img hh hw hnn hnp
      (hmag ▸ magImg_mem_magList env img ⟨0, hh⟩ ⟨0, hw⟩) t ht
  · intro hdeg
    have hmask : ∀ i j, maskOf env img t i j = false := by
      intro i j
      rw [maskOf, hdeg, EFloat.lt_nan_left]
    refine ⟨hmask, ?_⟩
    have hfp : fshiftProcOf env img t = fshiftOf env img := by
      funext i j
      rw [fshiftProcOf, hmask i j]
      simp
    funext i j
    rw [ft_extract_anomalies, reconOf, hfp, fshiftOf, hE.roundtrip,
      hE.absC_nonneg_real _ (by
        show (0 : ℚ) ≤ (img i j : ℚ) / 255
        positivity)]
    rw [imgNorm, div_mul_cancel₀ _ (by norm_num : (255 : ℚ) ≠ 0)]
    rw [u8cast, Int.floor_natCast,
      Int.emod_eq_of_lt (Int.ofNat_nonneg _) (by exact_mod_cast himg i j)]
    exact Int.toNat_natCast _

/-- Witness for C2 (amended) at the all-zero 2×2 image and the identity
environment, with threshold fraction 1/2. -/
theorem ft_extract_anomalies_degenerate_passthrough_witness :
    ((∀ i j, (fun (_ : Fin 2) (_ : Fin 2) => 0) i j = 0) →
      threshValOf (idEnv 2 2) (fun _ _ => 0) (1/2) = EFloat.nan) ∧
    (threshValOf (idEnv 2 2) (fun _ _ => 0) (1/2) = EFloat.nan →
      (∀ i j, maskOf (idEnv 2 2) (fun _ _ => 0) (1/2) i j = false) ∧
      ft_extract_anomalies (idEnv 2 2) (fun _ _ => 0) (1/2) = fun _ _ => 0) :=
  ft_extract_anomalies_degenerate_passthrough (idEnv 2 2) (fun _ _ => 0) (1/2)
    (idEnv_lawful 2 2) (by norm_num) (by norm_num) (by norm_num)
    (fun i j => by norm_num)

/-- C2 (counterexample to the claim as stated): on the all-zero 2×2 image
the threshold normalization does produce NaN — `min + t * (max - min)`
with `min = max = -∞` evaluates to NaN, i.e. the division-by-zero/NaN is
propagated through the threshold normalization rather than being guarded
away. -/
theorem threshVal_nan_on_zero_image :
    threshValOf (idEnv 2 2) (fun _ _ => 0) (1/2) = EFloat.nan := by
  have hz : ∀ i j : Fin 2, magImgOf (idEnv 2 2) (fun _ _ => 0) i j
      = EFloat.ninf := by
    intro i j
    show (if (⟨((0 : ℕ) : ℚ) / 255, 0⟩ : CQ) = CQ.zero
      then EFloat.ninf else EFloat.fin 0) = EFloat.ninf
    rw [if_pos (by rw [CQ.zero]; norm_num)]
  have hmin : npMin (magListOf (idEnv 2 2) (fun _ _ => 0)) = EFloat.ninf := by
    refine npMin_eq_ninf _ ?_ ?_
    · intro x hx
      obtain ⟨i, j, rfl⟩ := mem_magList _ _ x hx
      rw [hz i j]
      simp
    · exact hz 0 0 ▸ magImg_mem_magList (idEnv 2 2) (fun _ _ => 0) 0 0
  have hmax : npMax (magListOf (idEnv 2 2) (fun _ _ => 0)) = EFloat.ninf := by
    have hmem := npMax_mem (magListOf (idEnv 2 2) (fun _ _ => 0))
      (magList_ne_nil _ _ (by norm_num) (by norm_num))
    obtain ⟨i, j, hij⟩ := mem_magList _ _ _ hmem
    rw [hij, hz i j]
  rw [threshValOf_eq, hmin, hmax]
  rfl

/-- A saturating (clipping) uint8 conversion — what the code would compute
if it clipped before the cast; `ft_extract_anomalies` does not do this. -/
def satCast (q : ℚ) : ℕ := min (⌊q⌋).toNat 255

/-- The external environment for the wrap demonstration: the inverse
transform returns the constant 3/2, a reconstruction magnitude above 1. -/
def wrapEnv : FTEnv 1 1 where
  fft2 := fun x i j => ⟨x i j, 0⟩
  fftshift := id
  ifftshift := id
  ifft2 := fun _ _ _ => ⟨3/2, 0⟩
  logAbs := fun _ => EFloat.fin 0
  absC := fun z => z.re

/-- C10: the output conversion is `(img_proc * 255.0).astype(np.uint8)`
with no clipping: every output pixel is the floor of 255 times the
reconstruction magnitude reduced modulo 256.  At a reconstruction
magnitude of 3/2 (> 1) the output pixel is `⌊382.5⌋ mod 256 = 126`,
whereas a saturating conversion would give 255 — the value wraps instead
of clipping. -/
theorem output_cast_wraps_modulo_256 :
    (∀ (h w : ℕ) (env : FTEnv h w) (img : Fin h → Fin w → ℕ) (t : ℚ)
      (i : Fin h) (j : Fin w),
      ft_extract_anomalies env img t i j
        = ((⌊reconOf env img t i j * 255⌋ % 256)).toNat) ∧
    (1 < reconOf wrapEnv (fun _ _ => 0) 0 0 0) ∧
    ft_extract_anomalies wrapEnv (fun _ _ => 0) 0 0 0 = 126 ∧
    satCast (reconOf wrapEnv (fun _ _ => 0) 0 0 0 * 255) = 255 ∧
    (126 : ℕ) ≠ 255 := by
  refine ⟨fun h w env img t i j => rfl, ?_, ?_, ?_, by norm_num⟩
  · show (1 : ℚ) < 3/2
    norm_num
  · show u8cast ((3/2 : ℚ) * 255) = 126
    rw [u8cast]
    norm_num
    rfl
  · show satCast ((3/2 : ℚ) * 255) = 255
    rw [satCast]
    norm_num

/-! ## Connected-component lemmas -/

/-- Expansion only adds pixels. -/
theorem subset_expandOnce {h w : ℕ} (S X : Finset (Fin h × Fin w)) :
    X ⊆ expandOnce S X :=
  Finset.subset_union_left

/-- Iterated expansion only adds pixels. -/
theorem subset_iterate_expandOnce {h w : ℕ} (S : Finset (Fin h × Fin w))
    (n : ℕ) (X : Finset (Fin h × Fin w)) : X ⊆ (expandOnce S)^[n] X := by
  induction n with
  | zero => exact subset_refl X
  | succ n ih =>
    rw [Function.iterate_succ_apply']
    exact subset_trans ih (subset_expandOnce S _)

/-- An inflationary operation on subsets of a finite type reaches a
fixpoint after `card` iterations from a nonempty start: each non-fixpoint
step strictly grows the set, and sets cannot outgrow the type. -/
theorem iterate_fixed_of_card {α : Type} [Fintype α] [DecidableEq α]
    (f : Finset α → Finset α) (hincl : ∀ X, X ⊆ f X) (X : Finset α)
    (hX : X.Nonempty) : f (f^[Fintype.card α] X) = f^[Fintype.card α] X := by
  have persist : ∀ k n, k ≤ n → f (f^[k] X) = f^[k] X → f^[n] X = f^[k] X := by
    intro k n hkn hfix
    induction n, hkn using Nat.le_induction with
    | base => rfl
    | succ n hkn ih =>
      rw [Function.iterate_succ_apply', ih, hfix]
  have growth : ∀ n, (∀ k, k < n → f (f^[k] X) ≠ f^[k] X) →
      X.card + n ≤ (f^[n] X).card := by
    intro n
    induction n with
    | zero => intro _; simp
    | succ n ih =>
      intro hne
      have h1 : X.card + n ≤ (f^[n] X).card :=
        ih (fun k hk => hne k (Nat.lt_succ_of_lt hk))
      have h2 : (f^[n] X) ⊂ f (f^[n] X) :=
        ssubset_of_subset_of_ne (hincl _) (Ne.symm (hne n (Nat.lt_succ_self n)))
      have h3 : (f^[n] X).card < (f (f^[n] X)).card := Finset.card_lt_card h2
      rw [Function.iterate_succ_apply']
      omega
  by_cases hex : ∃ k, k < Fintype.card α ∧ f (f^[k] X) = f^[k] X
  · obtain ⟨k, hk, hfix⟩ := hex
    rw [persist k (Fintype.card α) (le_of_lt hk) hfix]
    exact hfix
  · push_neg at hex
    exfalso
    have h1 : X.card + Fintype.card α ≤ (f^[Fintype.card α] X).card :=
      growth (Fintype.card α) hex
    have h2 : (f^[Fintype.card α] X).card ≤ Fintype.card α := by
      rw [← Finset.card_univ]
      exact Finset.card_le_card (Finset.subset_univ _)
    have h3 : 1 ≤ X.card := Finset.Nonempty.card_pos hX
    omega

/-- The component is a fixpoint of expansion: `h * w` steps saturate. -/
theorem expandOnce_comp {h w : ℕ} (S : Finset (Fin h × Fin w))
    (p : Fin h × Fin w) : expandOnce S (comp S p) = comp S p := by
  have hcard : Fintype.card (Fin h × Fin w) = h * w := by simp
  rw [comp, ← hcard]
  exact iterate_fixed_of_card (expandOnce S) (subset_expandOnce S) {p}
    (Finset.singleton_nonempty p)

/-- Every pixel is in its own component. -/
theorem mem_comp_self {h w : ℕ} (S : Finset (Fin h × Fin w))
    (p : Fin h × Fin w) : p ∈ comp S p :=
  subset_iterate_expandOnce S (h * w) {p} (Finset.mem_singleton_self p)

/-- Components are closed under mask adjacency. -/
theorem comp_closed {h w : ℕ} (S : Finset (Fin h × Fin w))
    (p q r : Fin h × Fin w) (hq : q ∈ comp S p) (hadj : adjOn S q r) :
    r ∈ comp S p := by
  rw [← expandOnce_comp S p]
  exact Finset.mem_union_right _
    (Finset.mem_filter.2 ⟨Finset.mem_univ r, q, hq, hadj⟩)

/-- Mask adjacency is symmetric. -/
theorem adjOn_symm {h w : ℕ} (S : Finset (Fin h × Fin w)) :
    Symmetric (adjOn S) := by
  intro p q hpq
  obtain ⟨hp, hq, hne, h1, h2, h3, h4⟩ := hpq
  exact ⟨hq, hp, Ne.symm hne, h2, h1, h4, h3⟩

/-- Membership in an expansion iterate implies reachability through set
pixels. -/
theorem rtg_of_mem_iterate {h w : ℕ} (S : Finset (Fin h × Fin w))
    (p : Fin h × Fin w) :
    ∀ (n : ℕ) (x : Fin h × Fin w), x ∈ (expandOnce S)^[n] {p} →
      Relation.ReflTransGen (adjOn S) p x := by
  intro n
  induction n with
  | zero =>
    intro x hx
    rw [Function.iterate_zero_apply, Finset.mem_singleton] at hx
    rw [hx]
  | succ n ih =>
    intro x hx
    rw [Function.iterate_succ_apply', expandOnce] at hx
    rcases Finset.mem_union.1 hx with hx | hx
    · exact ih x hx
    · obtain ⟨-, q, hq, hadj⟩ := Finset.mem_filter.1 hx
      exact (ih q hq).tail hadj

/-- Component membership implies reachability through set pixels. -/
theorem rtg_of_mem_comp {h w : ℕ} (S : Finset (Fin h × Fin w))
    (p x : Fin h × Fin w) (hx : x ∈ comp S p) :
    Relation.ReflTransGen (adjOn S) p x :=
  rtg_of_mem_iterate S p (h * w) x hx

/-- Reachability through set pixels implies component membership. -/
theorem mem_comp_of_rtg {h w : ℕ} (S : Finset (Fin h × Fin w))
    (p x : Fin h × Fin w) (hx : Relation.ReflTransGen (adjOn S) p x) :
    x ∈ comp S p := by
  induction hx with
  | refl => exact mem_comp_self S p
  | tail hab hadj ih => exact comp_closed S p _ _ ih hadj

/-- The component of any of its members is the whole component. -/
theorem comp_eq_of_mem {h w : ℕ} (S : Finset (Fin h × Fin w))
    (p q : Fin h × Fin w) (hq : q ∈ comp S p) : comp S q = comp S p := by
  have hpq : Relation.ReflTransGen (adjOn S) p q := rtg_of_mem_comp S p q hq
  have hqp : Relation.ReflTransGen (adjOn S) q p :=
    Relation.ReflTransGen.symmetric (adjOn_symm S) hpq
  ext x
  constructor
  · intro hx
    exact mem_comp_of_rtg S p x (hpq.trans (rtg_of_mem_comp S q x hx))
  · intro hx
    exact mem_comp_of_rtg S q x (hqp.trans (rtg_of_mem_comp S p x hx))

/-- The raster key is injective. -/
theorem pkey_injective {h w : ℕ} (p q : Fin h × Fin w)
    (hpq : pkey p = pkey q) : p = q := by
  rw [pkey, pkey] at hpq
  have hp2 : p.2.val < w := p.2.isLt
  have hq2 : q.2.val < w := q.2.isLt
  have hw0 : 0 < w := Nat.lt_of_le_of_lt (Nat.zero_le _) hp2
  have h1 : p.1.val = q.1.val := by
    have hdp : (p.1.val * w + p.2.val) / w = p.1.val := by
      rw [add_comm, Nat.add_mul_div_right _ _ hw0, Nat.div_eq_of_lt hp2]
      omega
    have hdq : (q.1.val * w + q.2.val) / w = q.1.val := by
      rw [add_comm, Nat.add_mul_div_right _ _ hw0, Nat.div_eq_of_lt hq2]
      omega
    rw [← hdp, ← hdq, hpq]
  have h2 : p.2.val = q.2.val := by
    have := hpq
    rw [h1] at this
    omega
  exact Prod.ext (Fin.ext h1) (Fin.ext h2)

/-- Distinct label roots have disjoint components: a shared pixel would
merge the components, and a component has a unique raster-first pixel. -/
theorem comp_disjoint_of_roots_ne {h w : ℕ} (S : Finset (Fin h × Fin w))
    (p q : Fin h × Fin w) (hp : isRoot S p) (hq : isRoot S q) (hpq : p ≠ q) :
    Disjoint (comp S p) (comp S q) := by
  by_contra hnd
  obtain ⟨x, hxp, hxq⟩ := Finset.not_disjoint_iff.1 hnd
  have heq : comp S p = comp S q := by
    rw [← comp_eq_of_mem S p x hxp, ← comp_eq_of_mem S q x hxq]
  have hqp : q ∈ comp S p := heq ▸ mem_comp_self S q
  have hpq' : p ∈ comp S q := heq ▸ mem_comp_self S p
  have h1 : pkey p ≤ pkey q := hp.2 q hqp
  have h2 : pkey q ≤ pkey p := hq.2 p hpq'
  exact hpq (pkey_injective p q (le_antisymm h1 h2))

/-- Every pixel is enumerated. -/
theorem mem_allPixels {h w : ℕ} (p : Fin h × Fin w) : p ∈ allPixels h w := by
  rw [allPixels]
  exact List.mem_flatMap.2 ⟨p.1, List.mem_finRange p.1,
    List.mem_map.2 ⟨p.2, List.mem_finRange p.2, rfl⟩⟩

/-- A `Nat.min` fold is bounded by its initial value. -/
theorem foldl_min_le_init : ∀ (t : List ℕ) (a : ℕ), t.foldl Nat.min a ≤ a := by
  intro t
  induction t with
  | nil => intro a; exact le_refl a
  | cons x t' ih =>
    intro a
    exact le_trans (ih (Nat.min a x)) (Nat.min_le_left a x)

/-- A `Nat.max` fold is bounded below by its initial value. -/
theorem init_le_foldl_max : ∀ (t : List ℕ) (a : ℕ), a ≤ t.foldl Nat.max a := by
  intro t
  induction t with
  | nil => intro a; exact le_refl a
  | cons x t' ih =>
    intro a
    exact le_trans (Nat.le_max_left a x) (ih (Nat.max a x))

/-- On a nonempty list the minimum is at most the maximum. -/
theorem natMinL_le_natMaxL (l : List ℕ) (hl : l ≠ []) :
    natMinL l ≤ natMaxL l := by
  cases l with
  | nil => exact absurd rfl hl
  | cons a t =>
    exact le_trans (foldl_min_le_init t a) (init_le_foldl_max t a)

/-! ## Theorems: bounding boxes -/

/-- C9 (amended): any two distinct surviving label roots of
`find_bounding_boxes` have pairwise disjoint labeled regions (no shared
pixel between the regions), and each root's bounding box is a well-formed
axis-aligned half-open box (positive extent in both axes).  The boxes
themselves, however, can overlap (see the counterexample). -/
theorem find_bounding_boxes_regions_disjoint {h w : ℕ}
    (img : Fin h → Fin w → ℕ) (percThresh areaThresh : ℚ)
    (dilationSize gh gw : ℕ) (p q : Fin h × Fin w)
    (hp : p ∈ survivingRoots img percThresh areaThresh dilationSize gh gw)
    (hq : q ∈ survivingRoots img percThresh areaThresh dilationSize gh gw)
    (hpq : p ≠ q) :
    Disjoint (comp (cleanedMask img percThresh dilationSize) p)
      (comp (cleanedMask img percThresh dilationSize) q) ∧
    (∃ r0 c0 r1 c1 : ℕ,
      bboxOf (comp (cleanedMask img percThresh dilationSize) p)
        = (r0, c0, r1, c1) ∧ r0 < r1 ∧ c0 < c1) := by
  have hroot : ∀ x : Fin h × Fin w,
      x ∈ survivingRoots img percThresh areaThresh dilationSize gh gw →
      isRoot (cleanedMask img percThresh dilationSize) x := by
    intro x hx
    rw [survivingRoots] at hx
    have hx1 := (List.mem_filter.1 hx).1
    rw [rootsOf] at hx1
    exact of_decide_eq_true (List.mem_filter.1 hx1).2
  refine ⟨comp_disjoint_of_roots_ne _ p q (hroot p hp) (hroot q hq) hpq, ?_⟩
  set m := cleanedMask img percThresh dilationSize with hm
  set l := (allPixels h w).filter (fun x => decide (x ∈ comp m p)) with hldef
  have hpl : p ∈ l := by
    rw [hldef]
    exact List.mem_filter.2 ⟨mem_allPixels p, decide_eq_true (mem_comp_self m p)⟩
  have hrow : (l.map fun x => x.1.val) ≠ [] := by
    intro hnil
    rw [List.map_eq_nil_iff] at hnil
    rw [hnil] at hpl
    cases hpl
  have hcol : (l.map fun x => x.2.val) ≠ [] := by
    intro hnil
    rw [List.map_eq_nil_iff] at hnil
    rw [hnil] at hpl
    cases hpl
  refine ⟨natMinL (l.map fun x => x.1.val), natMinL (l.map fun x => x.2.val),
    natMaxL (l.map fun x => x.1.val) + 1, natMaxL (l.map fun x => x.2.val) + 1,
    rfl, ?_, ?_⟩
  · exact Nat.lt_succ_of_le (natMinL_le_natMaxL _ hrow)
  · exact Nat.lt_succ_of_le (natMinL_le_natMaxL _ hcol)

/-- 4×4 test image: two bright pixels at (1,1) and (1,2), black
elsewhere. -/
def defectImg4 : Fin 4 → Fin 4 → ℕ := fun i j =>
  if i.val = 1 ∧ (j.val = 1 ∨ j.val = 2) then 255 else 0

/-- 6×6 test image: a bright 8-connected diagonal from (1,1) to (4,4) plus
an isolated bright pixel at (1,4), all away from the border. -/
def overlapImg6 : Fin 6 → Fin 6 → ℕ := fun i j =>
  if (i.val, j.val) ∈ [(1,1), (2,2), (3,3), (4,4), (1,4)] then 255 else 0

set_option maxRecDepth 100000 in
set_option maxHeartbeats 40000000 in
unseal Rat.add Rat.mul Rat.inv Rat.sub Rat.ofScientific in
/-- Witness for C9 (amended) at the 6×6 image: the two surviving roots
(1,1) and (1,4) have disjoint regions and a well-formed first box. -/
theorem find_bounding_boxes_regions_disjoint_witness :
    Disjoint (comp (cleanedMask overlapImg6 80 1) ((1 : Fin 6), (1 : Fin 6)))
      (comp (cleanedMask overlapImg6 80 1) ((1 : Fin 6), (4 : Fin 6))) ∧
    (∃ r0 c0 r1 c1 : ℕ,
      bboxOf (comp (cleanedMask overlapImg6 80 1) ((1 : Fin 6), (1 : Fin 6)))
        = (r0, c0, r1, c1) ∧ r0 < r1 ∧ c0 < c1) := by
  have hl : survivingRoots overlapImg6 80 (1/100) 1 6 6
      = [((1 : Fin 6), (1 : Fin 6)), ((1 : Fin 6), (4 : Fin 6))] := by decide
  exact find_bounding_boxes_regions_disjoint overlapImg6 80 (1/100) 1 6 6
    ((1 : Fin 6), (1 : Fin 6)) ((1 : Fin 6), (4 : Fin 6))
    (by rw [hl]; exact List.mem_cons_self _ _)
    (by rw [hl]; exact List.mem_cons_of_mem _ (List.mem_cons_self _ _))
    (by decide)

set_option maxRecDepth 100000 in
set_option maxHeartbeats 40000000 in
unseal Rat.add Rat.mul Rat.inv Rat.sub Rat.ofScientific in
/-- C9 (counterexample to the claim as stated): on the 6×6 image the
returned boxes are `(1,1,5,5)` (the diagonal region's box) and
`(1,4,2,5)` (the isolated pixel's box), and they share the pixel (1,4):
returned boxes are not pairwise non-overlapping. -/
theorem find_bounding_boxes_boxes_can_overlap :
    find_bounding_boxes overlapImg6 80 (1/100) 1 6 6
      = [(1, 1, 5, 5), (1, 4, 2, 5)] ∧
    boxesOverlap (1, 1, 5, 5) (1, 4, 2, 5) :=
  ⟨by decide, ⟨1, 4, by norm_num⟩⟩

set_option maxRecDepth 100000 in
set_option maxHeartbeats 40000000 in
unseal Rat.add Rat.mul Rat.inv Rat.sub Rat.ofScientific in
/-- C3 (code evaluated at the failing input): with the notebook-global
`img_proc_np` of shape 2×2 and `area_fraction = 1/2`, the 4×4 input's
2-pixel region passes the global-derived floor `2*2*(1/2) = 2` and its box
is returned — although `1/2` of the input's own 16 pixels is 8 > 2, so the
claim's floor relative to the input image is violated. -/
theorem find_bounding_boxes_area_floor_from_global_shape :
    find_bounding_boxes defectImg4 80 (1/2) 1 2 2 = [(1, 1, 2, 3)] ∧
    (comp (cleanedMask defectImg4 80 1) ((1 : Fin 4), (1 : Fin 4))).card = 2 ∧
    ((2 : ℚ) * 2 * (1/2) ≤ ((2 : ℕ) : ℚ)) ∧
    ¬((4 : ℚ) * 4 * (1/2) ≤ ((2 : ℕ) : ℚ)) := by
  refine ⟨by decide, by decide, by norm_num, by norm_num⟩

set_option maxRecDepth 100000 in
set_option maxHeartbeats 40000000 in
unseal Rat.add Rat.mul Rat.inv Rat.sub Rat.ofScientific in
/-- C8 (code evaluated at the failing input): two `ft_defect_detection`
calls with identical image and threshold/area/dilation arguments but
different ambient `img_proc_np` shapes (2×2 vs 4×4) return different box
lists — the result depends on the notebook-global variable, not only on
the explicit arguments. -/
theorem ft_defect_detection_reads_notebook_global :
    ft_defect_detection (idEnv 4 4) defectImg4 (1/2) 80 (1/2) 1 2 2
      = [(1, 1, 2, 3)] ∧
    ft_defect_detection (idEnv 4 4) defectImg4 (1/2) 80 (1/2) 1 4 4 = [] := by
  refine ⟨by decide, by decide⟩

end BlogPosts
